import Mathlib

set_option maxHeartbeats 1000000

/-
Verification of the time-stepping Navier-Stokes engine
(`src/Navier-Stokes/src/NavierStokes3D.cpp`).

The solver state is embedded shallowly: distributed block matrices become
entrywise functions over the rationals, the per-cell finite-element
integrals of `assemble` / `assemble_time_step` become explicit quadrature
sums over cell-local shape-function data, and the driver loop of
`NavierStokes::solve` becomes a fold over step indices producing both the
final state and the trace of reported events.  External library routines
(`MatrixTools::apply_boundary_values`, the GMRES `SolverControl` loop,
`MPI_Reduce`) are modelled from the specification's interface contracts and
are marked as such in their doc comments.
-/

namespace NavierStokes

/-- Distributed sparse matrices are modelled entrywise over the rationals. -/
abbrev Mat : Type := ℕ → ℕ → ℚ

/-- Distributed vectors are modelled entrywise over the rationals. -/
abbrev Vec : Type := ℕ → ℚ

def mAdd (X Y : Mat) : Mat := fun i j => X i j + Y i j

def mSub (X Y : Mat) : Mat := fun i j => X i j - Y i j

def mSmul (c : ℚ) (X : Mat) : Mat := fun i j => c * X i j

def mZero : Mat := fun _ _ => 0

def vZero : Vec := fun _ => 0

/-- Sum of a list of rationals (quadrature / local-dof accumulation). -/
def qsum : List ℚ → ℚ
  | [] => 0
  | x :: xs => x + qsum xs

/-- Sum of `f` over `Fin n`. -/
def finSum (n : ℕ) (f : Fin n → ℚ) : ℚ := qsum ((List.finRange n).map f)

/--
One mesh cell as seen by the assembly loops: cell-local quadrature weights
`JxW`, the velocity-part values, gradients and divergences and the
pressure-part values of the local shape functions
(`fe_values[velocity].value/gradient/divergence`, `fe_values[pressure].value`),
and the local-to-global dof map `get_dof_indices`.
-/
structure Cell where
  nq : ℕ
  nd : ℕ
  JxW : Fin nq → ℚ
  phiV : Fin nd → Fin nq → Fin 3 → ℚ
  gradV : Fin nd → Fin nq → Fin 3 → Fin 3 → ℚ
  divV : Fin nd → Fin nq → ℚ
  phiP : Fin nd → Fin nq → ℚ
  gidx : Fin nd → ℕ

/-- `fe_values[velocity].get_function_values`: velocity of the global field
`u` interpolated at quadrature point `q`. -/
def function_value (c : Cell) (u : Vec) (q : Fin c.nq) (comp : Fin 3) : ℚ :=
  finSum c.nd fun a => u (c.gidx a) * c.phiV a q comp

/-- `fe_values[velocity].get_function_divergences`: divergence of the global
field `u` interpolated at quadrature point `q`. -/
def function_divergence (c : Cell) (u : Vec) (q : Fin c.nq) : ℚ :=
  finSum c.nd fun a => u (c.gidx a) * c.divV a q

/-- Viscosity term of `assemble` (line 246):
`nu * scalar_product(grad_i, grad_j) * JxW`. -/
def cell_stiffness_matrix (nu : ℚ) (c : Cell) (i j : Fin c.nd) : ℚ :=
  finSum c.nq fun q =>
    nu * (finSum 3 fun x => finSum 3 fun y => c.gradV i q x y * c.gradV j q x y) * c.JxW q

/-- Time-derivative term of `assemble` (line 249):
`scalar_product(value_i, value_j) / deltat * JxW`. -/
def cell_mass_matrix (deltat : ℚ) (c : Cell) (i j : Fin c.nd) : ℚ :=
  finSum c.nq fun q =>
    (finSum 3 fun x => c.phiV i q x * c.phiV j q x) / deltat * c.JxW q

/-- The raw velocity mass integrals `(phi_i, phi_j)` (the `assemble` mass
entries are `1/deltat` times these, the dead BDF2 rebuild in
`assemble_time_step` adds `0.5/deltat` times these). -/
def cell_velocity_mass (c : Cell) (i j : Fin c.nd) : ℚ :=
  finSum c.nq fun q =>
    (finSum 3 fun x => c.phiV i q x * c.phiV j q x) * c.JxW q

/-- Convective term of `assemble_time_step` (line 456), also the first
summand of the `assemble` convective entries (line 252):
`scalar_product(grad_j * u, value_i) * JxW`. -/
def cell_convection_multistep (c : Cell) (u : Vec) (i j : Fin c.nd) : ℚ :=
  finSum c.nq fun q =>
    (finSum 3 fun x =>
      (finSum 3 fun y => c.gradV j q x y * function_value c u q y) * c.phiV i q x) * c.JxW q

/-- Temam stabilization term of `assemble` (line 255):
`0.5 * div(u) * scalar_product(value_i, value_j) * JxW`. -/
def cell_temam (c : Cell) (u : Vec) (i j : Fin c.nd) : ℚ :=
  finSum c.nq fun q =>
    1/2 * function_divergence c u q *
      (finSum 3 fun x => c.phiV i q x * c.phiV j q x) * c.JxW q

/-- Convective entries of `assemble` (lines 251-255): the linearized
convective term plus the Temam stabilization term, accumulated per
quadrature point into one cell matrix. -/
def cell_convection_first (c : Cell) (u : Vec) (i j : Fin c.nd) : ℚ :=
  finSum c.nq fun q =>
    ((finSum 3 fun x =>
        (finSum 3 fun y => c.gradV j q x y * function_value c u q y) * c.phiV i q x) * c.JxW q
      + 1/2 * function_divergence c u q *
          (finSum 3 fun x => c.phiV i q x * c.phiV j q x) * c.JxW q)

/-- Pressure coupling entries of `assemble` (lines 258-261):
`- p_j * div_i * JxW + p_i * div_j * JxW`. -/
def cell_coupling (c : Cell) (i j : Fin c.nd) : ℚ :=
  finSum c.nq fun q =>
    (-(c.phiP j q * c.divV i q) + c.phiP i q * c.divV j q) * c.JxW q

/-- Pressure mass entries of `assemble` (line 264): `p_i * p_j / nu * JxW`. -/
def cell_pressure_mass (nu : ℚ) (c : Cell) (i j : Fin c.nd) : ℚ :=
  finSum c.nq fun q => c.phiP i q * c.phiP j q / nu * c.JxW q

/-- Right-hand-side entries of both `assemble` (line 269) and
`assemble_time_step` (line 459):
`scalar_product(u, value_i) * JxW / deltat`, using only the current field. -/
def cell_rhs (deltat : ℚ) (c : Cell) (u : Vec) (i : Fin c.nd) : ℚ :=
  finSum c.nq fun q =>
    (finSum 3 fun x => function_value c u q x * c.phiV i q x) * c.JxW q / deltat

/-- The raw right-hand-side integrals `(u, phi_i)` (the assembled RHS is
`1/deltat` times these). -/
def cell_r0 (c : Cell) (u : Vec) (i : Fin c.nd) : ℚ :=
  finSum c.nq fun q =>
    (finSum 3 fun x => function_value c u q x * c.phiV i q x) * c.JxW q

/-- Modelled from the spec: the second-order multistep (BDF2) right-hand
side, which "combines current and previous velocity fields per the
multistep formula", i.e. `((2*u^n - 0.5*u^(n-1)), phi_i)/deltat` for the
three-level backward-difference formula.  Used only to compare the source's
`cell_rhs` against the specified behaviour. -/
def cell_rhs_bdf2_spec (deltat : ℚ) (c : Cell) (u uprev : Vec) (i : Fin c.nd) : ℚ :=
  finSum c.nq fun q =>
    (finSum 3 fun x =>
      (2 * function_value c u q x - 1/2 * function_value c uprev q x) * c.phiV i q x) *
      c.JxW q / deltat

/-- Scatter-add of cell matrices into a global matrix
(`matrix.add(dof_indices, cell_matrix)` over all locally owned cells,
followed by the collective compress). -/
def scatter (cells : List Cell) (f : (c : Cell) → Fin c.nd → Fin c.nd → ℚ) : Mat :=
  fun i j =>
    qsum (cells.map fun c =>
      finSum c.nd fun a => finSum c.nd fun b =>
        if c.gidx a = i ∧ c.gidx b = j then f c a b else 0)

/-- Scatter-add of cell vectors into a global vector. -/
def scatterVec (cells : List Cell) (f : (c : Cell) → Fin c.nd → ℚ) : Vec :=
  fun i =>
    qsum (cells.map fun c =>
      finSum c.nd fun a => if c.gidx a = i then f c a else 0)

/--
The data the assembly routines consume: the step size and final time, the
assembled constant blocks (`M0` the raw velocity mass integrals, `A` the
viscous stiffness, `B` the pressure coupling, `PM` the pressure mass), the
field-dependent convection and Temam blocks and raw RHS, the Dirichlet
data (inlet dofs of boundary region 0 with their time-dependent values,
no-slip dofs of regions 2 and 3), and the initial condition `u_0`.
-/
structure FEData where
  deltat : ℚ
  T : ℚ
  M0 : Mat
  A : Mat
  B : Mat
  PM : Mat
  conv : Vec → Mat
  temam : Vec → Mat
  r0 : Vec → Vec
  inletDof : ℕ → Bool
  inletVal : ℚ → ℕ → ℚ
  wallDof : ℕ → Bool
  u0 : Vec

/-- The two calls to `VectorTools::interpolate_boundary_values` accumulate
one `std::map`: first the inlet values (region 0), then zero on walls and
obstacle (regions 2 and 3); a later insertion for the same dof overwrites
the earlier one, so wall/obstacle dofs end up with value zero. -/
def interpolate_boundary_map (inlet : ℕ → Option ℚ) (wall : ℕ → Bool) :
    ℕ → Option ℚ :=
  fun i => if wall i then some 0 else inlet i

/-- The combined Dirichlet map used at time `t` by both assembly routines. -/
def buildBC (fe : FEData) (t : ℚ) : ℕ → Option ℚ :=
  interpolate_boundary_map
    (fun i => if fe.inletDof i then some (fe.inletVal t i) else none)
    fe.wallDof

/-- Whether a dof is constrained by the combined Dirichlet map (this set is
time-independent; only the prescribed inlet values depend on time). -/
def constrainedDof (fe : FEData) (i : ℕ) : Bool := fe.wallDof i || fe.inletDof i

/-- The mutable solver state: the five block matrices, the right-hand side
and the current and previous solution snapshots. -/
@[ext]
structure NSState where
  system : Mat
  mass : Mat
  stiffness : Mat
  convection : Mat
  pressure_mass : Mat
  rhs : Vec
  solution : Vec
  previous_solution : Vec

/-- The representative diagonal value used by Dirichlet row elimination:
the existing diagonal entry when it is nonzero, otherwise a nonzero
placeholder. -/
def bcDiag (S : Mat) (i : ℕ) : ℚ := if S i i = 0 then 1 else S i i

/-- Modelled from the spec: `MatrixTools::apply_boundary_values` (library
code, not in this repository) enforces the Dirichlet map by row
elimination: for every constrained dof the matrix row is zeroed except for
a representative diagonal value, the RHS entry is rewritten to diagonal
times prescribed value, and the solution entry is set to the prescribed
value.  The call passes `eliminate_columns = false`, so unconstrained rows
and their RHS entries are untouched. -/
def apply_boundary_values (bc : ℕ → Option ℚ) (s : NSState) : NSState :=
  { s with
    system := fun i j =>
      match bc i with
      | some _ => if j = i then bcDiag s.system i else 0
      | none => s.system i j
    rhs := fun i =>
      match bc i with
      | some v => bcDiag s.system i * v
      | none => s.rhs i
    solution := fun i =>
      match bc i with
      | some v => v
      | none => s.solution i }

/-- `NavierStokes::assemble` (first time step): all blocks are rebuilt from
scratch; the system matrix accumulates the coupling entries and then adds
mass, convection and stiffness (lines 321-324); the mass entries carry the
first-order weight `1/deltat`; finally the Dirichlet conditions are
applied. -/
def assemble (fe : FEData) (t : ℚ) (s : NSState) : NSState :=
  let mass := mSmul (1 / fe.deltat) fe.M0
  let stiffness := fe.A
  let convection := mAdd (fe.conv s.solution) (fe.temam s.solution)
  let system := mAdd (mAdd (mAdd fe.B mass) convection) stiffness
  let rhs := fun i => (1 / fe.deltat) * fe.r0 s.solution i
  apply_boundary_values (buildBC fe t)
    { s with system := system, mass := mass, stiffness := stiffness,
             convection := convection, pressure_mass := fe.PM, rhs := rhs }

/-- `NavierStokes::assemble_time_step`: the stale convection contribution
is subtracted from the system matrix (line 388); only when the sentinel
`time == -1` is passed does the BDF2 branch subtract the mass contribution
and accumulate `0.5/deltat` mass entries on top of the existing mass matrix
(lines 390-394, 449-454, 496-508); convection and the RHS are rebuilt from
the current field; finally the Dirichlet conditions are applied. -/
def assemble_time_step (fe : FEData) (t : ℚ) (s : NSState) : NSState :=
  let sys1 := mSub s.system s.convection
  let sys2 := if t = -1 then mSub sys1 s.mass else sys1
  let mass2 := if t = -1 then mAdd s.mass (mSmul (1 / (2 * fe.deltat)) fe.M0) else s.mass
  let convection := fe.conv s.solution
  let sys3 := if t = -1 then mAdd sys2 mass2 else sys2
  let system := mAdd sys3 convection
  let rhs := fun i => (1 / fe.deltat) * fe.r0 s.solution i
  apply_boundary_values (buildBC fe t)
    { s with system := system, mass := mass2, convection := convection, rhs := rhs }

/-- Fixed absolute tolerance of `solve_time_step` (line 551). -/
def tol : ℚ := 1 / 10000

/-- Fixed iteration cap of `solve_time_step` (line 550). -/
def maxiter : ℕ := 100000

/-- Modelled from the spec: the `SolverControl` loop of the external GMRES
solver iterates until the absolute residual norm drops below the tolerance
or the iteration cap is exhausted, and reports which occurred.  `res n` is
the residual norm after `n` iterations. -/
def gmres_iterate (res : ℕ → ℚ) (t : ℚ) : ℕ → ℕ → ℕ
  | 0, n => n
  | fuel + 1, n => if res n < t then n else gmres_iterate res t fuel (n + 1)

/-- The iteration count reported by `solver_control.last_step()` for a
solve with residual history `res`. -/
def gmres_last_step (res : ℕ → ℚ) : ℕ := gmres_iterate res tol maxiter 0

/-- External per-run data: the abstract Krylov solution map, the residual
history of the solve at each step, and the force coefficients
`compute_forces` produces from a solution field. -/
structure RunEnv where
  krylov : Mat → Vec → Vec → Vec
  resAt : ℕ → ℕ → ℚ
  forcesOf : Vec → ℚ × ℚ

/-- The console reports the driver emits, in order. -/
inductive Event where
  | gmres (iters : ℕ)
  | pdiff
  | forces (cd cl : ℚ)
  | output (k : ℕ)
  | summary (cdmax clmin : ℚ)
deriving DecidableEq

/-- `NavierStokes::solve_time_step`: snapshot `previous_solution` from the
current solution, then replace the solution by the Krylov iterate. -/
def solve_time_step (env : RunEnv) (s : NSState) : NSState :=
  { s with previous_solution := s.solution,
           solution := env.krylov s.system s.rhs s.solution }

/-- The driver loop state: solver state, the running drag maximum and lift
minimum, and the trace of reported events. -/
structure LoopState where
  st : NSState
  cDmax : ℚ
  cLmin : ℚ
  events : List Event

/-- The state after `setup` and the initial-condition interpolation in
`solve`: all matrices and the RHS are zero, the solution is the
interpolated `u_0`. -/
def initState (fe : FEData) : NSState :=
  { system := mZero, mass := mZero, stiffness := mZero, convection := mZero,
    pressure_mass := mZero, rhs := vZero, solution := fe.u0,
    previous_solution := vZero }

/-- The loop state on entry to the while loop of `solve`: sentinel extrema
`-999` and `999` (lines 705-706) and the initial `output(0)`. -/
def initLoop (fe : FEData) : LoopState :=
  { st := initState fe, cDmax := -999, cLmin := 999, events := [Event.output 0] }

/-- One iteration of the while loop of `NavierStokes::solve` at step count
`k` (elapsed time `k * deltat`): `assemble` when `time == deltat` else
`assemble_time_step`; then `solve_time_step`; the pressure difference at
`time == T - deltat`; forces and extrema updates when `time > 0.1`; output
every 20 steps. -/
def stepBody (fe : FEData) (env : RunEnv) (k : ℕ) (L : LoopState) : LoopState :=
  let t : ℚ := (k : ℚ) * fe.deltat
  let s1 := if t = fe.deltat then assemble fe t L.st else assemble_time_step fe t L.st
  let s2 := solve_time_step env s1
  let cd := (env.forcesOf s2.solution).1
  let cl := (env.forcesOf s2.solution).2
  { st := s2,
    cDmax := if (1 : ℚ)/10 < t then max cd L.cDmax else L.cDmax,
    cLmin := if (1 : ℚ)/10 < t then min cl L.cLmin else L.cLmin,
    events := L.events ++ [Event.gmres (gmres_last_step (env.resAt k))]
      ++ (if t = fe.T - fe.deltat then [Event.pdiff] else [])
      ++ (if (1 : ℚ)/10 < t then [Event.forces cd cl] else [])
      ++ (if k % 20 = 0 then [Event.output k] else []) }

/-- The first `n` iterations of the while loop of `solve`. -/
def runLoop (fe : FEData) (env : RunEnv) (n : ℕ) : LoopState :=
  (List.range' 1 n).foldl (fun L k => stepBody fe env k L) (initLoop fe)

/-- A complete run of `solve` with `n` loop iterations: after the loop the
final summary (drag maximum, lift minimum) is reported once. -/
def fullRun (fe : FEData) (env : RunEnv) (n : ℕ) : LoopState :=
  let L := runLoop fe env n
  { L with events := L.events ++ [Event.summary L.cDmax L.cLmin] }

/-- `n` is the number of iterations the while condition
`time < T - 0.5 * deltat` admits (the loop check before iteration `k`
sees elapsed time `(k-1) * deltat`). -/
def isStepCount (fe : FEData) (n : ℕ) : Prop :=
  (∀ m : ℕ, m < n → (m : ℚ) * fe.deltat < fe.T - fe.deltat / 2) ∧
  ¬ ((n : ℚ) * fe.deltat < fe.T - fe.deltat / 2)

def gmresOf : Event → Option ℕ := fun e =>
  match e with
  | Event.gmres i => some i
  | _ => none

def forcesOfEvent : Event → Option (ℚ × ℚ) := fun e =>
  match e with
  | Event.forces a b => some (a, b)
  | _ => none

def summaryOf : Event → Option (ℚ × ℚ) := fun e =>
  match e with
  | Event.summary a b => some (a, b)
  | _ => none

/-- The GMRES iteration counts reported in a trace. -/
def gmresEvents (l : List Event) : List ℕ := l.filterMap gmresOf

/-- The force-coefficient pairs reported in a trace. -/
def forcesEvents (l : List Event) : List (ℚ × ℚ) := l.filterMap forcesOfEvent

/-- The final summaries reported in a trace. -/
def summaryEvents (l : List Event) : List (ℚ × ℚ) := l.filterMap summaryOf

/-- `x` is the maximum of the list `l`. -/
def isMaxOf (x : ℚ) (l : List ℚ) : Prop := x ∈ l ∧ ∀ y ∈ l, y ≤ x

/-- `x` is the minimum of the list `l`. -/
def isMinOf (x : ℚ) (l : List ℚ) : Prop := x ∈ l ∧ ∀ y ∈ l, x ≤ y

/-- The sparsity coupling table of `setup` (lines 109-119): every component
pair couples except pressure with pressure (component `dim = 3`). -/
def couplingTable : Fin 4 → Fin 4 → Bool :=
  fun c d => if c = 3 ∧ d = 3 then false else true

/-- The `ComponentMask({true, true, true, false})` passed to both
`interpolate_boundary_values` calls: the three velocity components are
constrained, the pressure component never is. -/
def componentMask : Fin 4 → Bool := ![true, true, true, false]

/-- Modelled from the spec: `interpolate_boundary_values` only constrains
dofs on the requested boundary whose component is enabled in the mask. -/
def constrainedComp (compOf : ℕ → Fin 4) (onB : ℕ → Bool) : ℕ → Bool :=
  fun i => onB i && componentMask (compOf i)

/-- The `FEData` induced by a concrete mesh: every global block is the
scatter-add of the corresponding per-cell integrals, and the Dirichlet dof
sets are the boundary dofs filtered through the component mask.
`compOf` gives the component of each global dof, `inletB` and `wallB` mark
the dofs sitting on boundary region 0 and on regions 2/3. -/
def meshFE (cells : List Cell) (deltat T nu : ℚ) (compOf : ℕ → Fin 4)
    (inletB wallB : ℕ → Bool) (inletVal : ℚ → ℕ → ℚ) (u0 : Vec) : FEData :=
  { deltat := deltat, T := T,
    M0 := scatter cells (fun c => cell_velocity_mass c),
    A := scatter cells (fun c => cell_stiffness_matrix nu c),
    B := scatter cells (fun c => cell_coupling c),
    PM := scatter cells (fun c => cell_pressure_mass nu c),
    conv := fun u => scatter cells (fun c => cell_convection_multistep c u),
    temam := fun u => scatter cells (fun c => cell_temam c u),
    r0 := fun u => scatterVec cells (fun c => cell_r0 c u),
    inletDof := constrainedComp compOf inletB,
    inletVal := inletVal,
    wallDof := constrainedComp compOf wallB,
    u0 := u0 }

/-- A matrix vanishes on every entry whose row and column are both
pressure dofs (component 3). -/
def ppZero (compOf : ℕ → Fin 4) (M : Mat) : Prop :=
  ∀ i j, compOf i = 3 → compOf j = 3 → M i j = 0

/-- A matrix vanishes on every entry with a pressure row or a pressure
column (a velocity-velocity block). -/
def velOnly (compOf : ℕ → Fin 4) (M : Mat) : Prop :=
  ∀ i j, compOf i = 3 ∨ compOf j = 3 → M i j = 0

/-- The cell data respects the primitivity of the `FESystem`: a local
shape function attached to a pressure dof has vanishing velocity part
(values, gradients and divergence). -/
def primitiveCells (compOf : ℕ → Fin 4) (cells : List Cell) : Prop :=
  ∀ c ∈ cells, ∀ a : Fin c.nd, compOf (c.gidx a) = 3 →
    (∀ q x, c.phiV a q x = 0) ∧
    (∀ q x y, c.gradV a q x y = 0) ∧
    (∀ q, c.divV a q = 0)

/-- `VectorTools::point_value` wrapped in the try/catch of
`compute_pressure_difference`: a locally available point yields its
pressure value, `ExcPointNotAvailableHere` is caught and the local
contribution stays zero (lines 858-891). -/
def point_value (avail : Option ℚ) : ℚ :=
  match avail with
  | some p => p
  | none => 0

/-- Modelled from the spec: `MPI_Reduce(..., MPI_MAX, 0, ...)` combines the
per-process values by maximum onto rank 0. -/
def mpi_max_reduce : List ℚ → ℚ
  | [] => 0
  | x :: xs => xs.foldl max x

/-- `compute_pressure_difference`: each process contributes its local
pressure value (zero when the probe point is not locally owned), the two
global values are recovered by the maximum reduction and subtracted. -/
def compute_pressure_difference (availA availB : List (Option ℚ)) : ℚ :=
  mpi_max_reduce (availA.map point_value) - mpi_max_reduce (availB.map point_value)

/-- The boundary id of the obstacle surface used by `compute_forces`
(line 791). -/
def obstacle_boundary_id : ℕ := 3

/-- The in-plane tangent `(ny, -nx, 0)` built by `compute_forces`
(lines 805-808) from the (already negated) face normal. -/
def tangentOf (n : Fin 3 → ℚ) : Fin 3 → ℚ := ![n 1, -(n 0), 0]

/-- `Tensor::norm_square`. -/
def norm_square (v : Fin 3 → ℚ) : ℚ := finSum 3 fun x => v x * v x

/-- The per-quadrature drag contribution of `compute_forces`
(lines 810-816): `(rho * nu * n * grad * (tangent / tangent.norm_square())
* ny - p * nx) * JxW`. -/
def drag_contribution (rho nu : ℚ) (grad : Fin 3 → Fin 3 → ℚ) (p : ℚ)
    (n : Fin 3 → ℚ) (jxw : ℚ) : ℚ :=
  (rho * nu *
      (finSum 3 fun y =>
        (finSum 3 fun x => n x * grad x y) *
          (tangentOf n y / norm_square (tangentOf n))) * n 1
    - p * n 0) * jxw

/-- A trivial external environment: the Krylov solver returns its initial
guess, every residual history starts converged, forces are zero. -/
def envId : RunEnv :=
  { krylov := fun _ _ x => x, resAt := fun _ _ => 0, forcesOf := fun _ => (0, 0) }

/-- A run whose force coefficients are constantly `(-1000, 1000)`. -/
def envBad : RunEnv :=
  { krylov := fun _ _ x => x, resAt := fun _ _ => 0, forcesOf := fun _ => (-1000, 1000) }

/-- A run whose force coefficients are constantly `(3, -1)`. -/
def envW9 : RunEnv :=
  { krylov := fun _ _ x => x, resAt := fun _ _ => 0, forcesOf := fun _ => (3, -1) }

/-- A minimal problem instance: unit step size, final time `5/2` (so the
while loop runs twice), a single nonzero raw mass entry, no constrained
dofs. -/
def feC1 : FEData :=
  { deltat := 1, T := 5/2,
    M0 := fun i j => if i = 0 ∧ j = 0 then 1 else 0,
    A := mZero, B := mZero, PM := mZero,
    conv := fun _ => mZero, temam := fun _ => mZero, r0 := fun _ => vZero,
    inletDof := fun _ => false, inletVal := fun _ _ => 0,
    wallDof := fun _ => false, u0 := vZero }

/-- A minimal problem instance with one constrained dof (dof 0, a wall
dof) and a coupling block with a nonzero off-diagonal entry in the
constrained row. -/
def feC3 : FEData :=
  { deltat := 1, T := 5/2,
    M0 := mZero, A := mZero,
    B := fun i j => if i = 0 ∧ j = 1 then 1 else 0,
    PM := mZero,
    conv := fun _ => mZero, temam := fun _ => mZero, r0 := fun _ => vZero,
    inletDof := fun _ => false, inletVal := fun _ _ => 0,
    wallDof := fun i => decide (i = 0), u0 := vZero }

/-- A one-cell, one-dof, one-quadrature-point cell whose velocity shape
function has nonzero divergence, so that the Temam term is nonzero while
the linearized convective term vanishes. -/
def cellW : Cell :=
  { nq := 1, nd := 1,
    JxW := fun _ => 1,
    phiV := fun _ _ x => if x.val = 0 then 1 else 0,
    gradV := fun _ _ _ _ => 0,
    divV := fun _ _ => 1,
    phiP := fun _ _ => 0,
    gidx := fun _ => 0 }

/-- The constant-one global field. -/
def uW : Vec := fun _ => 1

/-- A one-cell mesh with one velocity dof (global dof 0) and one pressure
dof (global dof 1), respecting primitivity. -/
def cellC8 : Cell :=
  { nq := 1, nd := 2,
    JxW := fun _ => 1,
    phiV := fun a _ x => if a.val = 0 ∧ x.val = 0 then 1 else 0,
    gradV := fun _ _ _ _ => 0,
    divV := fun _ _ => 0,
    phiP := fun a _ => if a.val = 1 then 1 else 0,
    gidx := fun a => a.val }

/-- Component map for the `cellC8` mesh: dof 1 is the pressure dof. -/
def compOfW : ℕ → Fin 4 := fun i => if i = 1 then 3 else 0

/-- Boundary data for the `cellC8` mesh: dof 0 lies on the inlet. -/
def inletBW : ℕ → Bool := fun i => decide (i = 0)

/-- Boundary data for the `cellC8` mesh: no wall dofs. -/
def wallBW : ℕ → Bool := fun _ => false

/-- The `FEData` of the `cellC8` one-cell mesh. -/
def feC8 : FEData :=
  meshFE [cellC8] 1 (5/2) 1 compOfW inletBW wallBW (fun _ _ => 0) vZero

/-- The unique local dof of `cellW`. -/
def dofW : Fin cellW.nd := ⟨0, Nat.one_pos⟩

/- ------------------------------------------------------------------ -/
/- Generic helper lemmas.                                             -/
/- ------------------------------------------------------------------ -/

theorem qsum_eq_zero (l : List ℚ) (h : ∀ x ∈ l, x = 0) : qsum l = 0 := by
  induction l with
  | nil => rfl
  | cons a l ih =>
    have ha : a = 0 := h a (List.mem_cons_self a l)
    have hl : ∀ x ∈ l, x = 0 := fun x hx => h x (List.mem_cons_of_mem a hx)
    simp [qsum, ha, ih hl]

theorem finSum_eq_zero (n : ℕ) (f : Fin n → ℚ) (h : ∀ a, f a = 0) :
    finSum n f = 0 := by
  apply qsum_eq_zero
  intro x hx
  rcases List.mem_map.mp hx with ⟨a, _, rfl⟩
  exact h a

theorem qsum_map_add {α : Type} (l : List α) (f g : α → ℚ) :
    qsum (l.map fun x => f x + g x) = qsum (l.map f) + qsum (l.map g) := by
  induction l with
  | nil => simp [qsum]
  | cons a l ih =>
    simp only [List.map, qsum, ih]
    ring

theorem finSum_add (n : ℕ) (f g : Fin n → ℚ) :
    finSum n (fun q => f q + g q) = finSum n f + finSum n g :=
  qsum_map_add (List.finRange n) f g

theorem foldl_max_le (l : List ℚ) (a b : ℚ) (ha : a ≤ b) (h : ∀ y ∈ l, y ≤ b) :
    l.foldl max a ≤ b := by
  induction l generalizing a with
  | nil => exact ha
  | cons x l ih =>
    refine ih (max a x) (max_le ha (h x (List.mem_cons_self x l))) ?_
    exact fun y hy => h y (List.mem_cons_of_mem x hy)

theorem le_foldl_max (l : List ℚ) (a : ℚ) : a ≤ l.foldl max a := by
  induction l generalizing a with
  | nil => exact le_refl a
  | cons x l ih => exact le_trans (le_max_left a x) (ih (max a x))

theorem mem_le_foldl_max (l : List ℚ) (a y : ℚ) (hy : y ∈ l) :
    y ≤ l.foldl max a := by
  induction l generalizing a with
  | nil => cases hy
  | cons x l ih =>
    rcases List.mem_cons.mp hy with h | h
    · subst h
      exact le_trans (le_max_right a y) (le_foldl_max l (max a y))
    · exact ih (max a x) h

theorem foldl_maxr_init_le (l : List ℚ) (a : ℚ) :
    a ≤ l.foldl (fun b x => max x b) a := by
  induction l generalizing a with
  | nil => exact le_refl a
  | cons x l ih => exact le_trans (le_max_right x a) (ih (max x a))

theorem foldl_maxr_mem_le (l : List ℚ) (a y : ℚ) (hy : y ∈ l) :
    y ≤ l.foldl (fun b x => max x b) a := by
  induction l generalizing a with
  | nil => cases hy
  | cons x l ih =>
    rcases List.mem_cons.mp hy with h | h
    · subst h
      exact le_trans (le_max_left y a) (foldl_maxr_init_le l (max y a))
    · exact ih (max x a) h

theorem foldl_maxr_eq_or_mem (l : List ℚ) (a : ℚ) :
    l.foldl (fun b x => max x b) a = a ∨ l.foldl (fun b x => max x b) a ∈ l := by
  induction l generalizing a with
  | nil => exact Or.inl rfl
  | cons x l ih =>
    simp only [List.foldl_cons]
    rcases ih (max x a) with h | h
    · rw [h]
      rcases max_choice x a with hm | hm
      · exact Or.inr (by rw [hm]; exact List.mem_cons_self x l)
      · exact Or.inl hm
    · exact Or.inr (List.mem_cons_of_mem x h)

theorem foldl_minr_le_init (l : List ℚ) (a : ℚ) :
    l.foldl (fun b x => min x b) a ≤ a := by
  induction l generalizing a with
  | nil => exact le_refl a
  | cons x l ih => exact le_trans (ih (min x a)) (min_le_right x a)

theorem foldl_minr_le_mem (l : List ℚ) (a y : ℚ) (hy : y ∈ l) :
    l.foldl (fun b x => min x b) a ≤ y := by
  induction l generalizing a with
  | nil => cases hy
  | cons x l ih =>
    rcases List.mem_cons.mp hy with h | h
    · subst h
      exact le_trans (foldl_minr_le_init l (min y a)) (min_le_left y a)
    · exact ih (min x a) h

theorem foldl_minr_eq_or_mem (l : List ℚ) (a : ℚ) :
    l.foldl (fun b x => min x b) a = a ∨ l.foldl (fun b x => min x b) a ∈ l := by
  induction l generalizing a with
  | nil => exact Or.inl rfl
  | cons x l ih =>
    simp only [List.foldl_cons]
    rcases ih (min x a) with h | h
    · rw [h]
      rcases min_choice x a with hm | hm
      · exact Or.inr (by rw [hm]; exact List.mem_cons_self x l)
      · exact Or.inl hm
    · exact Or.inr (List.mem_cons_of_mem x h)

/- ------------------------------------------------------------------ -/
/- Solver-control model lemmas.                                       -/
/- ------------------------------------------------------------------ -/

theorem gmres_iterate_le (res : ℕ → ℚ) (t : ℚ) :
    ∀ fuel n, gmres_iterate res t fuel n ≤ n + fuel := by
  intro fuel
  induction fuel with
  | zero => intro n; simp [gmres_iterate]
  | succ f ih =>
    intro n
    by_cases h : res n < t
    · simp only [gmres_iterate, if_pos h]
      exact Nat.le_add_right n (f + 1)
    · simp only [gmres_iterate, if_neg h]
      calc gmres_iterate res t f (n + 1) ≤ n + 1 + f := ih (n + 1)
        _ = n + (f + 1) := by ring

theorem gmres_iterate_spec (res : ℕ → ℚ) (t : ℚ) :
    ∀ fuel n, res (gmres_iterate res t fuel n) < t ∨
      gmres_iterate res t fuel n = n + fuel := by
  intro fuel
  induction fuel with
  | zero => intro n; right; simp [gmres_iterate]
  | succ f ih =>
    intro n
    by_cases h : res n < t
    · left
      simpa only [gmres_iterate, if_pos h] using h
    · rcases ih (n + 1) with hc | hc
      · left
        simpa only [gmres_iterate, if_neg h] using hc
      · right
        simp only [gmres_iterate, if_neg h, hc]
        ring

/- ------------------------------------------------------------------ -/
/- State-machine plumbing lemmas.                                     -/
/- ------------------------------------------------------------------ -/

theorem runLoop_zero (fe : FEData) (env : RunEnv) : runLoop fe env 0 = initLoop fe := rfl

theorem runLoop_succ (fe : FEData) (env : RunEnv) (n : ℕ) :
    runLoop fe env (n + 1) = stepBody fe env (n + 1) (runLoop fe env n) := by
  unfold runLoop
  rw [List.range'_1_concat, List.foldl_append]
  simp [Nat.add_comm 1 n]

theorem stepBody_st (fe : FEData) (env : RunEnv) (k : ℕ) (L : LoopState) :
    (stepBody fe env k L).st =
      solve_time_step env
        (if ((k : ℚ) * fe.deltat) = fe.deltat
          then assemble fe ((k : ℚ) * fe.deltat) L.st
          else assemble_time_step fe ((k : ℚ) * fe.deltat) L.st) := rfl

theorem solve_time_step_system (env : RunEnv) (s : NSState) :
    (solve_time_step env s).system = s.system := rfl

theorem solve_time_step_mass (env : RunEnv) (s : NSState) :
    (solve_time_step env s).mass = s.mass := rfl

theorem solve_time_step_stiffness (env : RunEnv) (s : NSState) :
    (solve_time_step env s).stiffness = s.stiffness := rfl

theorem solve_time_step_convection (env : RunEnv) (s : NSState) :
    (solve_time_step env s).convection = s.convection := rfl

theorem buildBC_none (fe : FEData) (t : ℚ) (i : ℕ)
    (h : constrainedDof fe i = false) : buildBC fe t i = none := by
  have h1 : fe.wallDof i = false ∧ fe.inletDof i = false := by
    simpa [constrainedDof] using h
  simp [buildBC, interpolate_boundary_map, h1.1, h1.2]

theorem apply_bv_mass (bc : ℕ → Option ℚ) (s : NSState) :
    (apply_boundary_values bc s).mass = s.mass := rfl

theorem apply_bv_stiffness (bc : ℕ → Option ℚ) (s : NSState) :
    (apply_boundary_values bc s).stiffness = s.stiffness := rfl

theorem apply_bv_convection (bc : ℕ → Option ℚ) (s : NSState) :
    (apply_boundary_values bc s).convection = s.convection := rfl

theorem apply_bv_system_none (bc : ℕ → Option ℚ) (s : NSState) (i j : ℕ)
    (h : bc i = none) :
    (apply_boundary_values bc s).system i j = s.system i j := by
  simp [apply_boundary_values, h]

theorem assemble_mass (fe : FEData) (t : ℚ) (s : NSState) :
    (assemble fe t s).mass = mSmul (1 / fe.deltat) fe.M0 := rfl

theorem assemble_stiffness (fe : FEData) (t : ℚ) (s : NSState) :
    (assemble fe t s).stiffness = fe.A := rfl

theorem assemble_convection (fe : FEData) (t : ℚ) (s : NSState) :
    (assemble fe t s).convection = mAdd (fe.conv s.solution) (fe.temam s.solution) := rfl

theorem assemble_system_unconstrained (fe : FEData) (t : ℚ) (s : NSState) (i j : ℕ)
    (h : constrainedDof fe i = false) :
    (assemble fe t s).system i j =
      fe.B i j + (1 / fe.deltat) * fe.M0 i j +
        (fe.conv s.solution i j + fe.temam s.solution i j) + fe.A i j := by
  have hb := buildBC_none fe t i h
  simp [assemble, apply_boundary_values, hb, mAdd, mSmul]

theorem ats_stiffness (fe : FEData) (t : ℚ) (s : NSState) :
    (assemble_time_step fe t s).stiffness = s.stiffness := rfl

theorem ats_convection (fe : FEData) (t : ℚ) (s : NSState) :
    (assemble_time_step fe t s).convection = fe.conv s.solution := rfl

theorem ats_mass_of_ne (fe : FEData) (t : ℚ) (s : NSState) (ht : ¬ t = -1) :
    (assemble_time_step fe t s).mass = s.mass := by
  simp [assemble_time_step, ht, apply_bv_mass]

theorem ats_mass_of_bdf (fe : FEData) (t : ℚ) (s : NSState) (ht : t = -1) :
    (assemble_time_step fe t s).mass =
      mAdd s.mass (mSmul (1 / (2 * fe.deltat)) fe.M0) := by
  simp [assemble_time_step, ht, apply_bv_mass]

theorem ats_system_unconstrained (fe : FEData) (t : ℚ) (s : NSState) (i j : ℕ)
    (h : constrainedDof fe i = false) (ht : ¬ t = -1) :
    (assemble_time_step fe t s).system i j =
      s.system i j - s.convection i j + fe.conv s.solution i j := by
  have hb := buildBC_none fe t i h
  simp [assemble_time_step, apply_boundary_values, hb, ht, mAdd, mSub]

theorem ats_system_unconstrained_bdf (fe : FEData) (t : ℚ) (s : NSState) (i j : ℕ)
    (h : constrainedDof fe i = false) (ht : t = -1) :
    (assemble_time_step fe t s).system i j =
      s.system i j - s.convection i j - s.mass i j +
        (s.mass i j + 1 / (2 * fe.deltat) * fe.M0 i j) + fe.conv s.solution i j := by
  subst ht
  have hb := buildBC_none fe (-1) i h
  simp [assemble_time_step, apply_boundary_values, hb, mAdd, mSub, mSmul]

/- ------------------------------------------------------------------ -/
/- C4: convective assembly in the two paths.                          -/
/- ------------------------------------------------------------------ -/

/--
C4 (counterexample): the claim says every time step's per-cell convective
contribution is the linearized term plus the Temam stabilization term, but
the multistep assembly (`assemble_time_step`, line 456) produces only the
linearized term: on the concrete cell `cellW` (whose Temam term is `1/2`)
the multistep contribution differs from the first-step contribution.
-/
theorem c4_counterexample :
    cell_convection_multistep cellW uW dofW dofW = 0 ∧
    cell_convection_first cellW uW dofW dofW = 1/2 ∧
    cell_convection_multistep cellW uW dofW dofW ≠
      cell_convection_first cellW uW dofW dofW := by
  refine ⟨?_, ?_, ?_⟩ <;>
    · simp only [cell_convection_multistep, cell_convection_first, function_value,
        function_divergence, cellW, uW, dofW, finSum, qsum, List.finRange, List.map]
      norm_num

/--
C4 (amended): the first-step convective assembly (`assemble`, lines
251-255) produces, per cell, the linearized convective term plus the Temam
stabilization term; the multistep convective assembly (`assemble_time_step`,
line 456) produces only the linearized term, so the two paths differ by
exactly the Temam term.
-/
theorem c4_amended (c : Cell) (u : Vec) (i j : Fin c.nd) :
    cell_convection_first c u i j =
      cell_convection_multistep c u i j + cell_temam c u i j := by
  unfold cell_convection_first cell_convection_multistep cell_temam
  exact finSum_add c.nq _ _

/- ------------------------------------------------------------------ -/
/- C2: the multistep right-hand side.                                 -/
/- ------------------------------------------------------------------ -/

/--
C2 (code bug): the multistep RHS (`assemble_time_step`, line 459, whose own
comment says "Time derivative discretization on the right hand side BDF2")
uses only the current velocity field with the first-order weight `1/deltat`;
its type does not even mention the previous field.  On the concrete cell
`cellW` with current and previous fields both constantly one, the code
produces `1` while the BDF2 combination of current and previous fields is
`3/2`.
-/
theorem c2_rhs_not_bdf2 :
    cell_rhs 1 cellW uW dofW = 1 ∧
    cell_rhs_bdf2_spec 1 cellW uW uW dofW = 3/2 ∧
    cell_rhs 1 cellW uW dofW ≠ cell_rhs_bdf2_spec 1 cellW uW uW dofW := by
  refine ⟨?_, ?_, ?_⟩ <;>
    · simp only [cell_rhs, cell_rhs_bdf2_spec, cellW, uW, dofW, function_value,
        finSum, qsum, List.finRange, List.map]
      norm_num

/- ------------------------------------------------------------------ -/
/- C10: the traction divisor in compute_forces.                       -/
/- ------------------------------------------------------------------ -/

/--
C10: in `compute_forces` the per-quadrature traction divides by
`tangent.norm_square()`, which equals `nx*nx + ny*ny` for the in-plane
tangent `(ny, -nx, 0)`; that divisor vanishes exactly when `nx` and `ny`
are both zero, i.e. when the face normal is parallel to the z-axis, so the
computation is division-by-zero free precisely under the claimed
precondition.
-/
theorem c10_traction_divisor (n : Fin 3 → ℚ) (rho nu p jxw : ℚ)
    (grad : Fin 3 → Fin 3 → ℚ) :
    norm_square (tangentOf n) = n 0 * n 0 + n 1 * n 1 ∧
    (norm_square (tangentOf n) = 0 ↔ n 0 = 0 ∧ n 1 = 0) ∧
    drag_contribution rho nu grad p n jxw =
      (rho * nu *
          ((finSum 3 fun y => (finSum 3 fun x => n x * grad x y) * tangentOf n y) /
            (n 0 * n 0 + n 1 * n 1)) * n 1
        - p * n 0) * jxw := by
  have hns : norm_square (tangentOf n) = n 0 * n 0 + n 1 * n 1 := by
    have h : norm_square (tangentOf n) =
        n 1 * n 1 + (-(n 0) * -(n 0) + (0 * 0 + 0)) := rfl
    rw [h]; ring
  have expand : ∀ f : Fin 3 → ℚ, finSum 3 f = f 0 + (f 1 + (f 2 + 0)) := fun _ => rfl
  refine ⟨hns, ?_, ?_⟩
  · rw [hns]
    constructor
    · intro h
      have h0 : n 0 * n 0 = 0 := by
        nlinarith [mul_self_nonneg (n 0), mul_self_nonneg (n 1)]
      have h1 : n 1 * n 1 = 0 := by
        nlinarith [mul_self_nonneg (n 0), mul_self_nonneg (n 1)]
      exact ⟨mul_self_eq_zero.mp h0, mul_self_eq_zero.mp h1⟩
    · rintro ⟨h0, h1⟩
      rw [h0, h1]; ring
  · unfold drag_contribution
    rw [hns]
    simp only [expand]
    simp only [div_eq_mul_inv]
    ring

/- ------------------------------------------------------------------ -/
/- C7: idempotence of Dirichlet enforcement.                          -/
/- ------------------------------------------------------------------ -/

theorem bcDiag_ne_zero (S : Mat) (i : ℕ) : bcDiag S i ≠ 0 := by
  unfold bcDiag
  split_ifs with h
  · norm_num
  · exact h

theorem apply_bv_system_some (bc : ℕ → Option ℚ) (s : NSState) (i j : ℕ) (v : ℚ)
    (hbc : bc i = some v) :
    (apply_boundary_values bc s).system i j =
      if j = i then bcDiag s.system i else 0 := by
  simp [apply_boundary_values, hbc]

theorem apply_bv_rhs_some (bc : ℕ → Option ℚ) (s : NSState) (i : ℕ) (v : ℚ)
    (hbc : bc i = some v) :
    (apply_boundary_values bc s).rhs i = bcDiag s.system i * v := by
  simp [apply_boundary_values, hbc]

theorem apply_bv_rhs_none (bc : ℕ → Option ℚ) (s : NSState) (i : ℕ)
    (hbc : bc i = none) :
    (apply_boundary_values bc s).rhs i = s.rhs i := by
  simp [apply_boundary_values, hbc]

theorem apply_bv_solution_some (bc : ℕ → Option ℚ) (s : NSState) (i : ℕ) (v : ℚ)
    (hbc : bc i = some v) :
    (apply_boundary_values bc s).solution i = v := by
  simp [apply_boundary_values, hbc]

theorem apply_bv_solution_none (bc : ℕ → Option ℚ) (s : NSState) (i : ℕ)
    (hbc : bc i = none) :
    (apply_boundary_values bc s).solution i = s.solution i := by
  simp [apply_boundary_values, hbc]

theorem bcDiag_stable (bc : ℕ → Option ℚ) (s : NSState) (i : ℕ) (v : ℚ)
    (hbc : bc i = some v) :
    bcDiag (apply_boundary_values bc s).system i = bcDiag s.system i := by
  have hdiag : (apply_boundary_values bc s).system i i = bcDiag s.system i := by
    rw [apply_bv_system_some bc s i i v hbc, if_pos rfl]
  show (if (apply_boundary_values bc s).system i i = 0 then 1
    else (apply_boundary_values bc s).system i i) = bcDiag s.system i
  rw [hdiag, if_neg (bcDiag_ne_zero s.system i)]

theorem apply_bv_idem (bc : ℕ → Option ℚ) (s : NSState) :
    apply_boundary_values bc (apply_boundary_values bc s) =
      apply_boundary_values bc s := by
  have hsys : ∀ i j,
      (apply_boundary_values bc (apply_boundary_values bc s)).system i j =
        (apply_boundary_values bc s).system i j := by
    intro i j
    cases hbc : bc i with
    | none =>
      rw [apply_bv_system_none bc _ i j hbc]
    | some v =>
      rw [apply_bv_system_some bc _ i j v hbc, apply_bv_system_some bc s i j v hbc,
        bcDiag_stable bc s i v hbc]
  have hrhs : ∀ i,
      (apply_boundary_values bc (apply_boundary_values bc s)).rhs i =
        (apply_boundary_values bc s).rhs i := by
    intro i
    cases hbc : bc i with
    | none =>
      rw [apply_bv_rhs_none bc _ i hbc, apply_bv_rhs_none bc s i hbc]
    | some v =>
      rw [apply_bv_rhs_some bc _ i v hbc, apply_bv_rhs_some bc s i v hbc,
        bcDiag_stable bc s i v hbc]
  have hsol : ∀ i,
      (apply_boundary_values bc (apply_boundary_values bc s)).solution i =
        (apply_boundary_values bc s).solution i := by
    intro i
    cases hbc : bc i with
    | none =>
      rw [apply_bv_solution_none bc _ i hbc, apply_bv_solution_none bc s i hbc]
    | some v =>
      rw [apply_bv_solution_some bc _ i v hbc, apply_bv_solution_some bc s i v hbc]
  refine NSState.ext ?_ rfl rfl rfl rfl ?_ ?_ rfl
  · funext i j; exact hsys i j
  · funext i; exact hrhs i
  · funext i; exact hsol i

/--
C7: applying the Dirichlet map built from the inlet set (region 0, applied
first) and the no-slip sets (regions 2 and 3, applied second, overwriting
any overlap) a second time to an already-constrained system leaves every
constrained row, its right-hand-side entry and the whole state unchanged —
`apply_boundary_values` is idempotent.
-/
theorem c7_dirichlet_idempotent (inlet : ℕ → Option ℚ) (wall : ℕ → Bool)
    (s : NSState) :
    apply_boundary_values (interpolate_boundary_map inlet wall)
        (apply_boundary_values (interpolate_boundary_map inlet wall) s) =
      apply_boundary_values (interpolate_boundary_map inlet wall) s :=
  apply_bv_idem (interpolate_boundary_map inlet wall) s

/- ------------------------------------------------------------------ -/
/- C6: the pressure-difference probe.                                 -/
/- ------------------------------------------------------------------ -/

/--
C6 (counterexample): the claim says the global pressure value is recovered
by the maximum-based reduction; with two processes where the owning
process holds the (negative) pressure value `-1` and the other does not
own the point, the reduction returns `0`, not the owner's value.
-/
theorem c6_counterexample :
    mpi_max_reduce (List.map point_value [some (-1 : ℚ), none]) = 0 ∧
    mpi_max_reduce (List.map point_value [some (-1 : ℚ), none]) ≠ -1 := by
  have h : mpi_max_reduce (List.map point_value [some (-1 : ℚ), none]) = 0 := by
    simp only [List.map, point_value, mpi_max_reduce, List.foldl]
    rw [max_eq_right (by norm_num : (-1 : ℚ) ≤ 0)]
  refine ⟨h, ?_⟩
  rw [h]
  norm_num

/--
C6 (amended): a process that does not own the probe point contributes
zero, the reduction is total (unavailability is never an error), and the
maximum-based reduction recovers the owner's pressure value provided that
value is nonnegative and every process reports either the owner's value or
an unavailable point.
-/
theorem c6_amended (ranks : List (Option ℚ)) (p : ℚ) (hp : 0 ≤ p)
    (hmem : some p ∈ ranks) (hall : ∀ o ∈ ranks, o = some p ∨ o = none) :
    mpi_max_reduce (ranks.map point_value) = p ∧ point_value none = 0 := by
  refine ⟨?_, rfl⟩
  cases ranks with
  | nil => simp at hmem
  | cons o ro =>
    have hub : ∀ a ∈ o :: ro, point_value a ≤ p := by
      intro a ha
      rcases hall a ha with h | h <;> simp [h, point_value, hp]
    have h1 : mpi_max_reduce ((o :: ro).map point_value) ≤ p := by
      simp only [List.map, mpi_max_reduce]
      refine foldl_max_le _ _ _ (hub o (List.mem_cons_self o ro)) ?_
      intro y hy
      rcases List.mem_map.mp hy with ⟨a, ha, rfl⟩
      exact hub a (List.mem_cons_of_mem o ha)
    have hlb : p ∈ (o :: ro).map point_value := by
      have hm := List.mem_map_of_mem point_value hmem
      simpa [point_value] using hm
    have h2 : p ≤ mpi_max_reduce ((o :: ro).map point_value) := by
      simp only [List.map, mpi_max_reduce] at hlb ⊢
      rcases List.mem_cons.mp hlb with h | h
      · rw [h]
        exact le_foldl_max _ _
      · exact mem_le_foldl_max _ _ _ h
    exact le_antisymm h1 h2

/--
C6 (witness): a two-process evaluation with owner value `2` recovers `2`
and the non-owner contributes zero.
-/
theorem c6_witness :
    mpi_max_reduce (List.map point_value [some (2 : ℚ), none]) = 2 ∧
      point_value (none : Option ℚ) = 0 :=
  c6_amended [some 2, none] 2 (by norm_num) (by simp)
    (by intro o ho; simpa using ho)

/- ------------------------------------------------------------------ -/
/- C5: the per-step linear solve.                                     -/
/- ------------------------------------------------------------------ -/

/--
C5: every per-step solve stops at an iteration count of at most the cap
`100000`, and when it stops it has either brought the absolute residual
below the fixed tolerance `1e-4` or exhausted the cap; the reported
iteration counts appear once per step in the run trace, and the run
performs all its steps regardless of the residual histories — a
non-converged solve is reported, not fatal.
-/
theorem c5_solver_control (fe : FEData) (env : RunEnv) (n k : ℕ) :
    gmres_last_step (env.resAt k) ≤ maxiter ∧
    (env.resAt k (gmres_last_step (env.resAt k)) < tol ∨
      gmres_last_step (env.resAt k) = maxiter) ∧
    gmresEvents (runLoop fe env n).events =
      (List.range' 1 n).map fun m => gmres_last_step (env.resAt m) := by
  refine ⟨?_, ?_, ?_⟩
  · simpa using gmres_iterate_le (env.resAt k) tol maxiter 0
  · simpa using gmres_iterate_spec (env.resAt k) tol maxiter 0
  · induction n with
    | zero => rfl
    | succ m ih =>
      rw [runLoop_succ, List.range'_1_concat, List.map_append]
      simp only [stepBody, gmresEvents, List.filterMap_append] at ih ⊢
      rw [ih]
      split_ifs <;> simp [gmresOf, Nat.add_comm 1 m]

/- ------------------------------------------------------------------ -/
/- C1: the scheme transition and the Mass block.                      -/
/- ------------------------------------------------------------------ -/

/--
C1 (counterexample): the claim says that at the transition to the
multistep scheme the Mass block is rebuilt with weight `0.5/deltat`; in
the run `feC1` (two steps, `deltat = 1`, raw mass entry `1`) the Mass
entry after the second step is still `1` (the first-step weight `1/deltat`
times the raw entry), not the claimed `0.5/deltat` weight `1/2`: the
rebuild branch of `assemble_time_step` is guarded by the sentinel
`time == -1`, which `solve` never passes.
-/
theorem c1_counterexample :
    (runLoop feC1 envId 2).st.mass 0 0 = 1 ∧
    mSmul (1 / (2 * feC1.deltat)) feC1.M0 0 0 = 1/2 ∧
    (runLoop feC1 envId 2).st.mass 0 0 ≠
      mSmul (1 / (2 * feC1.deltat)) feC1.M0 0 0 := by
  refine ⟨?_, ?_, ?_⟩ <;>
    norm_num [runLoop, List.range', stepBody, feC1, envId, initLoop, initState, assemble,
      assemble_time_step, solve_time_step, apply_boundary_values, buildBC,
      interpolate_boundary_map, mAdd, mSub, mSmul, mZero, vZero]

/--
C1 (amended): in every run with a positive step size, the first-order
start-up path (`assemble`) is selected exactly at the step whose elapsed
time equals one step size (step count 1) and the incremental path
(`assemble_time_step`) at every later step, but no Mass rebuild ever
happens: since `solve` never passes the sentinel `time == -1`, the Mass
block keeps the first-step weight `1/deltat` times the raw mass integrals,
unchanged for all steps.
-/
theorem c1_amended (fe : FEData) (env : RunEnv) (n : ℕ) (hn : 1 ≤ n)
    (hd : 0 < fe.deltat) :
    (∀ k : ℕ, ((k : ℚ) * fe.deltat = fe.deltat ↔ k = 1)) ∧
    ∀ i j, (runLoop fe env n).st.mass i j = (1 / fe.deltat) * fe.M0 i j := by
  have hone : ∀ k : ℕ, ((k : ℚ) * fe.deltat = fe.deltat ↔ k = 1) := by
    intro k
    constructor
    · intro h
      have h1 : (k : ℚ) * fe.deltat = 1 * fe.deltat := by rw [one_mul]; exact h
      have h2 : (k : ℚ) = 1 := mul_right_cancel₀ (ne_of_gt hd) h1
      exact_mod_cast h2
    · intro h
      subst h
      simp
  refine ⟨hone, ?_⟩
  induction n, hn using Nat.le_induction with
  | base =>
    intro i j
    have h1 : runLoop fe env 1 = stepBody fe env 1 (initLoop fe) := runLoop_succ fe env 0
    rw [h1, stepBody_st, if_pos ((hone 1).mpr rfl), solve_time_step_mass, assemble_mass]
    rfl
  | succ n hn1 ih =>
    intro i j
    rw [runLoop_succ, stepBody_st]
    by_cases hcond : ((n + 1 : ℕ) : ℚ) * fe.deltat = fe.deltat
    · rw [if_pos hcond, solve_time_step_mass, assemble_mass]
      rfl
    · have hne : ¬ ((n + 1 : ℕ) : ℚ) * fe.deltat = -1 := by
        have hpos : 0 < ((n + 1 : ℕ) : ℚ) * fe.deltat := by
          apply mul_pos _ hd
          exact_mod_cast Nat.succ_pos n
        intro hcon
        rw [hcon] at hpos
        norm_num at hpos
      rw [if_neg hcond, solve_time_step_mass, ats_mass_of_ne fe _ _ hne]
      exact ih i j

/--
C1 (witness): the amended claim instantiated on the two-step run `feC1`:
step 1 is the unique step whose elapsed time equals the step size, and the
Mass entry after both steps carries the weight `1/deltat`.
-/
theorem c1_witness :
    (((2 : ℕ) : ℚ) * feC1.deltat = feC1.deltat ↔ (2 : ℕ) = 1) ∧
    (runLoop feC1 envId 2).st.mass 0 0 = (1 / feC1.deltat) * feC1.M0 0 0 :=
  ⟨(c1_amended feC1 envId 2 (by norm_num) (by norm_num [feC1])).1 2,
   (c1_amended feC1 envId 2 (by norm_num) (by norm_num [feC1])).2 0 0⟩

/- ------------------------------------------------------------------ -/
/- C3: the system operator as a sum of blocks.                        -/
/- ------------------------------------------------------------------ -/

/--
C3 (counterexample): the claim says that after assembly completes the
stored System Operator equals the literal sum of the Mass, Stiffness,
Convection and Coupling contributions on every entry; in the run `feC3`
the dof 0 is Dirichlet-constrained and its row is overwritten by the
boundary elimination at the end of `assemble`, so after the first step the
entry `(0, 1)` of the System Operator is `0` while the block sum is `1`.
-/
theorem c3_counterexample :
    (runLoop feC3 envId 1).st.system 0 1 = 0 ∧
    (runLoop feC3 envId 1).st.mass 0 1 + (runLoop feC3 envId 1).st.stiffness 0 1 +
        (runLoop feC3 envId 1).st.convection 0 1 + feC3.B 0 1 = 1 ∧
    (runLoop feC3 envId 1).st.system 0 1 ≠
      (runLoop feC3 envId 1).st.mass 0 1 + (runLoop feC3 envId 1).st.stiffness 0 1 +
        (runLoop feC3 envId 1).st.convection 0 1 + feC3.B 0 1 := by
  refine ⟨?_, ?_, ?_⟩ <;>
    norm_num [runLoop, List.range', stepBody, feC3, envId, initLoop, initState, assemble,
      assemble_time_step, solve_time_step, apply_boundary_values, buildBC,
      interpolate_boundary_map, mAdd, mSub, mSmul, mZero, vZero, bcDiag]

theorem assemble_sum_rows (fe : FEData) (t : ℚ) (s : NSState) (i j : ℕ)
    (hc : constrainedDof fe i = false) :
    (assemble fe t s).system i j =
      (assemble fe t s).mass i j + (assemble fe t s).stiffness i j +
        (assemble fe t s).convection i j + fe.B i j := by
  rw [assemble_system_unconstrained fe t s i j hc, assemble_mass, assemble_stiffness,
    assemble_convection]
  simp only [mAdd, mSmul]
  ring

theorem ats_sum_rows (fe : FEData) (t : ℚ) (s : NSState) (i j : ℕ)
    (hc : constrainedDof fe i = false)
    (hIH : s.system i j =
      s.mass i j + s.stiffness i j + s.convection i j + fe.B i j) :
    (assemble_time_step fe t s).system i j =
      (assemble_time_step fe t s).mass i j + (assemble_time_step fe t s).stiffness i j +
        (assemble_time_step fe t s).convection i j + fe.B i j := by
  by_cases hm1 : t = -1
  · rw [ats_system_unconstrained_bdf fe t s i j hc hm1, ats_mass_of_bdf fe t s hm1,
      ats_stiffness, ats_convection, hIH]
    simp only [mAdd, mSmul]
    ring
  · rw [ats_system_unconstrained fe t s i j hc hm1, ats_mass_of_ne fe t s hm1,
      ats_stiffness, ats_convection, hIH]
    ring

/--
C3 (amended): at the end of every assembled time step (first-step path and
multistep path alike, the multistep path subtracting the stale Convection
before re-adding the fresh one), the System Operator row of every dof that
is not Dirichlet-constrained equals the sum of the current Mass, Stiffness
and Convection rows and the Coupling row; Dirichlet-constrained rows
instead hold the eliminated boundary rows.
-/
theorem c3_amended (fe : FEData) (env : RunEnv) (n : ℕ) (hn : 1 ≤ n) :
    ∀ i j, constrainedDof fe i = false →
      (runLoop fe env n).st.system i j =
        (runLoop fe env n).st.mass i j + (runLoop fe env n).st.stiffness i j +
          (runLoop fe env n).st.convection i j + fe.B i j := by
  induction n, hn using Nat.le_induction with
  | base =>
    intro i j hc
    have h1 : runLoop fe env 1 = stepBody fe env 1 (initLoop fe) := runLoop_succ fe env 0
    have hcond : ((1 : ℕ) : ℚ) * fe.deltat = fe.deltat := by push_cast; ring
    rw [h1, stepBody_st, if_pos hcond, solve_time_step_system, solve_time_step_mass,
      solve_time_step_stiffness, solve_time_step_convection]
    exact assemble_sum_rows fe _ _ i j hc
  | succ n hn1 ih =>
    intro i j hc
    rw [runLoop_succ, stepBody_st]
    by_cases hcond : ((n + 1 : ℕ) : ℚ) * fe.deltat = fe.deltat
    · rw [if_pos hcond, solve_time_step_system, solve_time_step_mass,
        solve_time_step_stiffness, solve_time_step_convection]
      exact assemble_sum_rows fe _ _ i j hc
    · rw [if_neg hcond, solve_time_step_system, solve_time_step_mass,
        solve_time_step_stiffness, solve_time_step_convection]
      exact ats_sum_rows fe _ _ i j hc (ih i j hc)

/--
C3 (witness): the amended claim instantiated on the one-step run `feC3` at
the unconstrained row 1.
-/
theorem c3_witness :
    constrainedDof feC3 1 = false ∧
    (runLoop feC3 envId 1).st.system 1 0 =
      (runLoop feC3 envId 1).st.mass 1 0 + (runLoop feC3 envId 1).st.stiffness 1 0 +
        (runLoop feC3 envId 1).st.convection 1 0 + feC3.B 1 0 :=
  ⟨by simp [constrainedDof, feC3],
   c3_amended feC3 envId 1 (by norm_num) 1 0 (by simp [constrainedDof, feC3])⟩

/- ------------------------------------------------------------------ -/
/- C8: the pressure-pressure block.                                   -/
/- ------------------------------------------------------------------ -/

theorem componentMask_pressure : componentMask 3 = false := rfl

theorem scatter_eq_zero (cells : List Cell)
    (f : (c : Cell) → Fin c.nd → Fin c.nd → ℚ) (i j : ℕ)
    (h : ∀ c ∈ cells, ∀ a b : Fin c.nd, c.gidx a = i → c.gidx b = j → f c a b = 0) :
    scatter cells f i j = 0 := by
  unfold scatter
  apply qsum_eq_zero
  intro x hx
  rcases List.mem_map.mp hx with ⟨c, hc, rfl⟩
  apply finSum_eq_zero
  intro a
  apply finSum_eq_zero
  intro b
  by_cases hia : c.gidx a = i ∧ c.gidx b = j
  · rw [if_pos hia]
    exact h c hc a b hia.1 hia.2
  · rw [if_neg hia]

theorem cell_velocity_mass_zero (c : Cell) (i j : Fin c.nd)
    (h : (∀ q x, c.phiV i q x = 0) ∨ ∀ q x, c.phiV j q x = 0) :
    cell_velocity_mass c i j = 0 := by
  apply finSum_eq_zero
  intro q
  have hz : (finSum 3 fun x => c.phiV i q x * c.phiV j q x) = 0 := by
    apply finSum_eq_zero
    intro x
    rcases h with h | h
    · rw [h q x, zero_mul]
    · rw [h q x, mul_zero]
  rw [hz, zero_mul]

theorem cell_stiffness_zero (nu : ℚ) (c : Cell) (i j : Fin c.nd)
    (h : (∀ q x y, c.gradV i q x y = 0) ∨ ∀ q x y, c.gradV j q x y = 0) :
    cell_stiffness_matrix nu c i j = 0 := by
  apply finSum_eq_zero
  intro q
  have hz : (finSum 3 fun x => finSum 3 fun y => c.gradV i q x y * c.gradV j q x y) = 0 := by
    apply finSum_eq_zero
    intro x
    apply finSum_eq_zero
    intro y
    rcases h with h | h
    · rw [h q x y, zero_mul]
    · rw [h q x y, mul_zero]
  rw [hz, mul_zero, zero_mul]

theorem cell_convection_zero (c : Cell) (u : Vec) (i j : Fin c.nd)
    (h : (∀ q x, c.phiV i q x = 0) ∨ ∀ q x y, c.gradV j q x y = 0) :
    cell_convection_multistep c u i j = 0 := by
  apply finSum_eq_zero
  intro q
  have hz : (finSum 3 fun x =>
      (finSum 3 fun y => c.gradV j q x y * function_value c u q y) * c.phiV i q x) = 0 := by
    apply finSum_eq_zero
    intro x
    rcases h with h | h
    · rw [h q x, mul_zero]
    · have hg : (finSum 3 fun y => c.gradV j q x y * function_value c u q y) = 0 := by
        apply finSum_eq_zero
        intro y
        rw [h q x y, zero_mul]
      rw [hg, zero_mul]
  rw [hz, zero_mul]

theorem cell_temam_zero (c : Cell) (u : Vec) (i j : Fin c.nd)
    (h : (∀ q x, c.phiV i q x = 0) ∨ ∀ q x, c.phiV j q x = 0) :
    cell_temam c u i j = 0 := by
  apply finSum_eq_zero
  intro q
  have hz : (finSum 3 fun x => c.phiV i q x * c.phiV j q x) = 0 := by
    apply finSum_eq_zero
    intro x
    rcases h with h | h
    · rw [h q x, zero_mul]
    · rw [h q x, mul_zero]
  rw [hz, mul_zero, zero_mul]

theorem cell_coupling_zero (c : Cell) (i j : Fin c.nd)
    (hi : ∀ q, c.divV i q = 0) (hj : ∀ q, c.divV j q = 0) :
    cell_coupling c i j = 0 := by
  apply finSum_eq_zero
  intro q
  rw [hi q, hj q, mul_zero, mul_zero, neg_zero, zero_add, zero_mul]

theorem meshFE_blocks (cells : List Cell) (deltat T nu : ℚ) (compOf : ℕ → Fin 4)
    (inletB wallB : ℕ → Bool) (inletVal : ℚ → ℕ → ℚ) (u0 : Vec)
    (hprim : primitiveCells compOf cells) :
    velOnly compOf (meshFE cells deltat T nu compOf inletB wallB inletVal u0).M0 ∧
    velOnly compOf (meshFE cells deltat T nu compOf inletB wallB inletVal u0).A ∧
    (∀ u, velOnly compOf
      ((meshFE cells deltat T nu compOf inletB wallB inletVal u0).conv u)) ∧
    (∀ u, velOnly compOf
      ((meshFE cells deltat T nu compOf inletB wallB inletVal u0).temam u)) ∧
    ppZero compOf (meshFE cells deltat T nu compOf inletB wallB inletVal u0).B := by
  refine ⟨?_, ?_, ?_, ?_, ?_⟩
  · intro i j hij
    show scatter cells (fun c => cell_velocity_mass c) i j = 0
    apply scatter_eq_zero
    intro c hc a b ha hb
    rcases hij with h | h
    · exact cell_velocity_mass_zero c a b (Or.inl (hprim c hc a (by rw [ha, h])).1)
    · exact cell_velocity_mass_zero c a b (Or.inr (hprim c hc b (by rw [hb, h])).1)
  · intro i j hij
    show scatter cells (fun c => cell_stiffness_matrix nu c) i j = 0
    apply scatter_eq_zero
    intro c hc a b ha hb
    rcases hij with h | h
    · exact cell_stiffness_zero nu c a b (Or.inl (hprim c hc a (by rw [ha, h])).2.1)
    · exact cell_stiffness_zero nu c a b (Or.inr (hprim c hc b (by rw [hb, h])).2.1)
  · intro u i j hij
    show scatter cells (fun c => cell_convection_multistep c u) i j = 0
    apply scatter_eq_zero
    intro c hc a b ha hb
    rcases hij with h | h
    · exact cell_convection_zero c u a b (Or.inl (hprim c hc a (by rw [ha, h])).1)
    · exact cell_convection_zero c u a b (Or.inr (hprim c hc b (by rw [hb, h])).2.1)
  · intro u i j hij
    show scatter cells (fun c => cell_temam c u) i j = 0
    apply scatter_eq_zero
    intro c hc a b ha hb
    rcases hij with h | h
    · exact cell_temam_zero c u a b (Or.inl (hprim c hc a (by rw [ha, h])).1)
    · exact cell_temam_zero c u a b (Or.inr (hprim c hc b (by rw [hb, h])).1)
  · intro i j hi hj
    show scatter cells (fun c => cell_coupling c) i j = 0
    apply scatter_eq_zero
    intro c hc a b ha hb
    exact cell_coupling_zero c a b
      (hprim c hc a (by rw [ha, hi])).2.2 (hprim c hc b (by rw [hb, hj])).2.2

theorem meshFE_constrained_pressure (cells : List Cell) (deltat T nu : ℚ)
    (compOf : ℕ → Fin 4) (inletB wallB : ℕ → Bool) (inletVal : ℚ → ℕ → ℚ) (u0 : Vec)
    (i : ℕ) (hi : compOf i = 3) :
    constrainedDof (meshFE cells deltat T nu compOf inletB wallB inletVal u0) i =
      false := by
  show (constrainedComp compOf wallB i || constrainedComp compOf inletB i) = false
  simp [constrainedComp, hi, componentMask_pressure]

theorem assemble_pinv (fe : FEData) (compOf : ℕ → Fin 4) (t : ℚ) (s : NSState)
    (hM0 : velOnly compOf fe.M0) (hA : velOnly compOf fe.A)
    (hConv : velOnly compOf (fe.conv s.solution))
    (hTemam : velOnly compOf (fe.temam s.solution))
    (hB : ppZero compOf fe.B)
    (hc : ∀ i, compOf i = 3 → constrainedDof fe i = false) :
    velOnly compOf (assemble fe t s).mass ∧
    velOnly compOf (assemble fe t s).stiffness ∧
    velOnly compOf (assemble fe t s).convection ∧
    ppZero compOf (assemble fe t s).system := by
  refine ⟨?_, ?_, ?_, ?_⟩
  · rw [assemble_mass]
    intro i j h
    simp [mSmul, hM0 i j h]
  · rw [assemble_stiffness]
    exact hA
  · rw [assemble_convection]
    intro i j h
    simp [mAdd, hConv i j h, hTemam i j h]
  · intro i j hi hj
    rw [assemble_system_unconstrained fe t s i j (hc i hi), hM0 i j (Or.inl hi),
      hA i j (Or.inl hi), hConv i j (Or.inl hi), hTemam i j (Or.inl hi), hB i j hi hj]
    ring

theorem ats_pinv (fe : FEData) (compOf : ℕ → Fin 4) (t : ℚ) (s : NSState)
    (hM0 : velOnly compOf fe.M0)
    (hConv : velOnly compOf (fe.conv s.solution))
    (hc : ∀ i, compOf i = 3 → constrainedDof fe i = false)
    (hmass : velOnly compOf s.mass) (hstiff : velOnly compOf s.stiffness)
    (hconv : velOnly compOf s.convection) (hsys : ppZero compOf s.system) :
    velOnly compOf (assemble_time_step fe t s).mass ∧
    velOnly compOf (assemble_time_step fe t s).stiffness ∧
    velOnly compOf (assemble_time_step fe t s).convection ∧
    ppZero compOf (assemble_time_step fe t s).system := by
  refine ⟨?_, ?_, ?_, ?_⟩
  · by_cases hm1 : t = -1
    · rw [ats_mass_of_bdf fe t s hm1]
      intro i j h
      simp [mAdd, mSmul, hmass i j h, hM0 i j h]
    · rw [ats_mass_of_ne fe t s hm1]
      exact hmass
  · rw [ats_stiffness]
    exact hstiff
  · rw [ats_convection]
    exact hConv
  · intro i j hi hj
    by_cases hm1 : t = -1
    · rw [ats_system_unconstrained_bdf fe t s i j (hc i hi) hm1, hsys i j hi hj,
        hconv i j (Or.inl hi), hmass i j (Or.inl hi), hM0 i j (Or.inl hi),
        hConv i j (Or.inl hi)]
      ring
    · rw [ats_system_unconstrained fe t s i j (hc i hi) hm1, hsys i j hi hj,
        hconv i j (Or.inl hi), hConv i j (Or.inl hi)]
      ring

/--
C8: for a run over a mesh whose cells respect the primitivity of the
finite-element system (pressure dofs have vanishing velocity shape
functions), the sparsity coupling table decouples pressure from pressure,
the Dirichlet map never constrains a pressure dof (the component mask's
pressure entry is false), and at every step of the run the
pressure-pressure entries of the System Operator are exactly zero.
-/
theorem c8_pressure_block (cells : List Cell) (deltat T nu : ℚ) (compOf : ℕ → Fin 4)
    (inletB wallB : ℕ → Bool) (inletVal : ℚ → ℕ → ℚ) (u0 : Vec) (env : RunEnv)
    (n : ℕ) (hn : 1 ≤ n) (hprim : primitiveCells compOf cells) :
    couplingTable 3 3 = false ∧
    (∀ t i, compOf i = 3 →
      buildBC (meshFE cells deltat T nu compOf inletB wallB inletVal u0) t i = none) ∧
    ∀ i j, compOf i = 3 → compOf j = 3 →
      (runLoop (meshFE cells deltat T nu compOf inletB wallB inletVal u0)
        env n).st.system i j = 0 := by
  obtain ⟨hM0, hA, hConvAll, hTemamAll, hB⟩ :=
    meshFE_blocks cells deltat T nu compOf inletB wallB inletVal u0 hprim
  have hc : ∀ i, compOf i = 3 →
      constrainedDof (meshFE cells deltat T nu compOf inletB wallB inletVal u0) i =
        false :=
    fun i hi =>
      meshFE_constrained_pressure cells deltat T nu compOf inletB wallB inletVal u0 i hi
  refine ⟨by simp [couplingTable], fun t i hi => buildBC_none _ t i (hc i hi), ?_⟩
  have hinv : ∀ m : ℕ, 1 ≤ m →
      velOnly compOf
        (runLoop (meshFE cells deltat T nu compOf inletB wallB inletVal u0)
          env m).st.mass ∧
      velOnly compOf
        (runLoop (meshFE cells deltat T nu compOf inletB wallB inletVal u0)
          env m).st.stiffness ∧
      velOnly compOf
        (runLoop (meshFE cells deltat T nu compOf inletB wallB inletVal u0)
          env m).st.convection ∧
      ppZero compOf
        (runLoop (meshFE cells deltat T nu compOf inletB wallB inletVal u0)
          env m).st.system := by
    intro m hm
    induction m, hm using Nat.le_induction with
    | base =>
      have h1 : runLoop (meshFE cells deltat T nu compOf inletB wallB inletVal u0) env 1 =
          stepBody (meshFE cells deltat T nu compOf inletB wallB inletVal u0) env 1
            (initLoop (meshFE cells deltat T nu compOf inletB wallB inletVal u0)) :=
        runLoop_succ _ env 0
      have hcond : ((1 : ℕ) : ℚ) *
          (meshFE cells deltat T nu compOf inletB wallB inletVal u0).deltat =
          (meshFE cells deltat T nu compOf inletB wallB inletVal u0).deltat := by
        push_cast
        ring
      rw [h1, stepBody_st, if_pos hcond, solve_time_step_mass, solve_time_step_stiffness,
        solve_time_step_convection, solve_time_step_system]
      exact assemble_pinv _ compOf _ _ hM0 hA (hConvAll _) (hTemamAll _) hB hc
    | succ m hm1 ih =>
      rw [runLoop_succ, stepBody_st]
      by_cases hcond : ((m + 1 : ℕ) : ℚ) *
          (meshFE cells deltat T nu compOf inletB wallB inletVal u0).deltat =
          (meshFE cells deltat T nu compOf inletB wallB inletVal u0).deltat
      · rw [if_pos hcond, solve_time_step_mass, solve_time_step_stiffness,
          solve_time_step_convection, solve_time_step_system]
        exact assemble_pinv _ compOf _ _ hM0 hA (hConvAll _) (hTemamAll _) hB hc
      · rw [if_neg hcond, solve_time_step_mass, solve_time_step_stiffness,
          solve_time_step_convection, solve_time_step_system]
        exact ats_pinv _ compOf _ _ hM0 (hConvAll _) hc ih.1 ih.2.1 ih.2.2.1 ih.2.2.2
  exact fun i j hi hj => (hinv n hn).2.2.2 i j hi hj

/--
C8 (witness): the pressure-pressure invariant instantiated on the one-cell
mesh `cellC8` (velocity dof 0, pressure dof 1) after one step.
-/
theorem c8_witness :
    (runLoop (meshFE [cellC8] 1 (5/2) 1 compOfW inletBW wallBW (fun _ _ => 0) vZero)
      envId 1).st.system 1 1 = 0 :=
  (c8_pressure_block [cellC8] 1 (5/2) 1 compOfW inletBW wallBW (fun _ _ => 0) vZero
      envId 1 (by norm_num)
      (by
        intro c hc a ha
        have hce : c = cellC8 := by simpa using hc
        subst hce
        refine ⟨?_, ?_, ?_⟩
        · intro q x
          have ha1 : a.val = 1 := by
            have h2 : a.val < 2 := a.isLt
            by_contra hne
            have ha0 : a.val = 0 := by omega
            simp [cellC8, compOfW, ha0] at ha
          simp [cellC8, ha1]
        · intro q x y
          simp [cellC8]
        · intro q
          simp [cellC8])).2.2
    1 1 (by simp [compOfW]) (by simp [compOfW])

/- ------------------------------------------------------------------ -/
/- C9: the final summary.                                             -/
/- ------------------------------------------------------------------ -/

theorem forcesEvents_append (l1 l2 : List Event) :
    forcesEvents (l1 ++ l2) = forcesEvents l1 ++ forcesEvents l2 :=
  List.filterMap_append l1 l2 forcesOfEvent

theorem summaryEvents_append (l1 l2 : List Event) :
    summaryEvents (l1 ++ l2) = summaryEvents l1 ++ summaryEvents l2 :=
  List.filterMap_append l1 l2 summaryOf

theorem forcesEvents_ite_pdiff (c : Prop) [Decidable c] :
    forcesEvents (if c then [Event.pdiff] else []) = [] := by
  split_ifs <;> rfl

theorem forcesEvents_ite_output (c : Prop) [Decidable c] (k : ℕ) :
    forcesEvents (if c then [Event.output k] else []) = [] := by
  split_ifs <;> rfl

theorem forcesEvents_ite_forces (c : Prop) [Decidable c] (cd cl : ℚ) :
    forcesEvents (if c then [Event.forces cd cl] else []) =
      if c then [(cd, cl)] else [] := by
  split_ifs <;> rfl

theorem summaryEvents_ite_pdiff (c : Prop) [Decidable c] :
    summaryEvents (if c then [Event.pdiff] else []) = [] := by
  split_ifs <;> rfl

theorem summaryEvents_ite_output (c : Prop) [Decidable c] (k : ℕ) :
    summaryEvents (if c then [Event.output k] else []) = [] := by
  split_ifs <;> rfl

theorem summaryEvents_ite_forces (c : Prop) [Decidable c] (cd cl : ℚ) :
    summaryEvents (if c then [Event.forces cd cl] else []) = [] := by
  split_ifs <;> rfl

theorem stepBody_trace (fe : FEData) (env : RunEnv) (k : ℕ) (L : LoopState) :
    ∃ cd cl : ℚ,
      (stepBody fe env k L).events = L.events
        ++ [Event.gmres (gmres_last_step (env.resAt k))]
        ++ (if ((k : ℚ) * fe.deltat) = fe.T - fe.deltat then [Event.pdiff] else [])
        ++ (if (1 : ℚ)/10 < (k : ℚ) * fe.deltat then [Event.forces cd cl] else [])
        ++ (if k % 20 = 0 then [Event.output k] else []) ∧
      (stepBody fe env k L).cDmax =
        (if (1 : ℚ)/10 < (k : ℚ) * fe.deltat then max cd L.cDmax else L.cDmax) ∧
      (stepBody fe env k L).cLmin =
        (if (1 : ℚ)/10 < (k : ℚ) * fe.deltat then min cl L.cLmin else L.cLmin) :=
  ⟨_, _, rfl, rfl, rfl⟩

theorem runLoop_acc (fe : FEData) (env : RunEnv) (n : ℕ) :
    (runLoop fe env n).cDmax =
      ((forcesEvents (runLoop fe env n).events).map Prod.fst).foldl
        (fun b x => max x b) (-999) ∧
    (runLoop fe env n).cLmin =
      ((forcesEvents (runLoop fe env n).events).map Prod.snd).foldl
        (fun b x => min x b) 999 ∧
    summaryEvents (runLoop fe env n).events = [] := by
  induction n with
  | zero => exact ⟨rfl, rfl, rfl⟩
  | succ m ih =>
    obtain ⟨ih1, ih2, ih3⟩ := ih
    obtain ⟨cd, cl, he, hd, hl⟩ := stepBody_trace fe env (m + 1) (runLoop fe env m)
    rw [runLoop_succ, he, hd, hl]
    rw [forcesEvents_append, forcesEvents_append, forcesEvents_append,
      forcesEvents_append, summaryEvents_append, summaryEvents_append,
      summaryEvents_append, summaryEvents_append]
    rw [forcesEvents_ite_pdiff, forcesEvents_ite_output, forcesEvents_ite_forces,
      summaryEvents_ite_pdiff, summaryEvents_ite_output, summaryEvents_ite_forces, ih3]
    refine ⟨?_, ?_, by simp [summaryEvents, summaryOf]⟩
    · by_cases hcond : (1 : ℚ)/10 < ((m + 1 : ℕ) : ℚ) * fe.deltat
      · rw [if_pos hcond, if_pos hcond, ih1]
        simp [forcesEvents, forcesOfEvent, List.foldl_append]
      · rw [if_neg hcond, if_neg hcond, ih1]
        simp [forcesEvents, forcesOfEvent, List.foldl_append]
    · by_cases hcond : (1 : ℚ)/10 < ((m + 1 : ℕ) : ℚ) * fe.deltat
      · rw [if_pos hcond, if_pos hcond, ih2]
        simp [forcesEvents, forcesOfEvent, List.foldl_append]
      · rw [if_neg hcond, if_neg hcond, ih2]
        simp [forcesEvents, forcesOfEvent, List.foldl_append]

/--
C9 (amended): at normal completion the run reports the final summary
exactly once; the reported values are the fold of the observed drag
coefficients through max from the sentinel `-999` and of the observed lift
coefficients through min from the sentinel `999`, and these folds are the
true maximum and minimum observed values whenever at least one coefficient
pair was observed, some observed drag is at least `-999` and some observed
lift is at most `999`.
-/
theorem c9_amended (fe : FEData) (env : RunEnv) (n : ℕ)
    (_hsc : isStepCount fe n)
    (_hne : forcesEvents (runLoop fe env n).events ≠ [])
    (hcd : ∃ p ∈ forcesEvents (runLoop fe env n).events, -999 ≤ p.1)
    (hcl : ∃ p ∈ forcesEvents (runLoop fe env n).events, p.2 ≤ 999) :
    summaryEvents (fullRun fe env n).events =
      [(((forcesEvents (runLoop fe env n).events).map Prod.fst).foldl
          (fun b x => max x b) (-999),
        ((forcesEvents (runLoop fe env n).events).map Prod.snd).foldl
          (fun b x => min x b) 999)] ∧
    isMaxOf
      (((forcesEvents (runLoop fe env n).events).map Prod.fst).foldl
        (fun b x => max x b) (-999))
      ((forcesEvents (runLoop fe env n).events).map Prod.fst) ∧
    isMinOf
      (((forcesEvents (runLoop fe env n).events).map Prod.snd).foldl
        (fun b x => min x b) 999)
      ((forcesEvents (runLoop fe env n).events).map Prod.snd) := by
  obtain ⟨h1, h2, h3⟩ := runLoop_acc fe env n
  refine ⟨?_, ?_, ?_⟩
  · have hs : summaryEvents (fullRun fe env n).events =
        [((runLoop fe env n).cDmax, (runLoop fe env n).cLmin)] := by
      show summaryEvents ((runLoop fe env n).events ++ [Event.summary _ _]) = _
      rw [summaryEvents_append, h3]
      rfl
    rw [hs, h1, h2]
  · constructor
    · rcases foldl_maxr_eq_or_mem
        ((forcesEvents (runLoop fe env n).events).map Prod.fst) (-999) with h | h
      · obtain ⟨p, hp, hpge⟩ := hcd
        have hx : p.1 ∈ (forcesEvents (runLoop fe env n).events).map Prod.fst :=
          List.mem_map_of_mem Prod.fst hp
        have hxle : p.1 ≤ -999 := by
          have hle := foldl_maxr_mem_le
            ((forcesEvents (runLoop fe env n).events).map Prod.fst) (-999) p.1 hx
          rw [h] at hle
          exact hle
        have hxeq : p.1 = -999 := le_antisymm hxle hpge
        rw [h, ← hxeq]
        exact hx
      · exact h
    · intro y hy
      exact foldl_maxr_mem_le _ (-999) y hy
  · constructor
    · rcases foldl_minr_eq_or_mem
        ((forcesEvents (runLoop fe env n).events).map Prod.snd) 999 with h | h
      · obtain ⟨p, hp, hple⟩ := hcl
        have hx : p.2 ∈ (forcesEvents (runLoop fe env n).events).map Prod.snd :=
          List.mem_map_of_mem Prod.snd hp
        have hxge : 999 ≤ p.2 := by
          have hle := foldl_minr_le_mem
            ((forcesEvents (runLoop fe env n).events).map Prod.snd) 999 p.2 hx
          rw [h] at hle
          exact hle
        have hxeq : p.2 = 999 := le_antisymm hple hxge
        rw [h, ← hxeq]
        exact hx
      · exact h
    · intro y hy
      exact foldl_minr_le_mem _ 999 y hy

/--
C9 (counterexample): with force coefficients constantly `(-1000, 1000)`
the two-step run reports the summary `(-999, 999)` — the sentinel extrema
— although every observed drag coefficient is `-1000`, so the reported
drag value is not the maximum observed drag coefficient.
-/
theorem c9_counterexample :
    summaryEvents (fullRun feC1 envBad 2).events = [(-999, 999)] ∧
    ¬ isMaxOf (-999) ((forcesEvents (runLoop feC1 envBad 2).events).map Prod.fst) := by
  constructor
  · norm_num [fullRun, runLoop, List.range', stepBody, feC1, envBad, initLoop, initState,
      assemble, assemble_time_step, solve_time_step, apply_boundary_values, buildBC,
      interpolate_boundary_map, mAdd, mSub, mSmul, mZero, vZero, summaryEvents,
      summaryOf, List.filterMap]
  · norm_num [runLoop, List.range', stepBody, feC1, envBad, initLoop, initState,
      assemble, assemble_time_step, solve_time_step, apply_boundary_values, buildBC,
      interpolate_boundary_map, mAdd, mSub, mSmul, mZero, vZero, forcesEvents,
      forcesOfEvent, List.filterMap, isMaxOf]

/--
C9 (witness): the amended claim instantiated on the two-step run with
constant force coefficients `(3, -1)`.
-/
theorem c9_witness :
    summaryEvents (fullRun feC1 envW9 2).events =
      [(((forcesEvents (runLoop feC1 envW9 2).events).map Prod.fst).foldl
          (fun b x => max x b) (-999),
        ((forcesEvents (runLoop feC1 envW9 2).events).map Prod.snd).foldl
          (fun b x => min x b) 999)] ∧
    isMaxOf
      (((forcesEvents (runLoop feC1 envW9 2).events).map Prod.fst).foldl
        (fun b x => max x b) (-999))
      ((forcesEvents (runLoop feC1 envW9 2).events).map Prod.fst) ∧
    isMinOf
      (((forcesEvents (runLoop feC1 envW9 2).events).map Prod.snd).foldl
        (fun b x => min x b) 999)
      ((forcesEvents (runLoop feC1 envW9 2).events).map Prod.snd) :=
  c9_amended feC1 envW9 2
    (by
      refine ⟨?_, ?_⟩
      · intro m hm
        interval_cases m <;> norm_num [feC1]
      · norm_num [feC1])
    (by
      norm_num [runLoop, List.range', stepBody, feC1, envW9, initLoop, initState,
        assemble, assemble_time_step, solve_time_step, apply_boundary_values, buildBC,
        interpolate_boundary_map, mAdd, mSub, mSmul, mZero, vZero, forcesEvents,
        forcesOfEvent, List.filterMap]
      exact List.cons_ne_nil _ _)
    (by
      refine ⟨((3 : ℚ), (-1 : ℚ)), ?_, by norm_num⟩
      norm_num [runLoop, List.range', stepBody, feC1, envW9, initLoop, initState,
        assemble, assemble_time_step, solve_time_step, apply_boundary_values, buildBC,
        interpolate_boundary_map, mAdd, mSub, mSmul, mZero, vZero, forcesEvents,
        forcesOfEvent, List.filterMap])
    (by
      refine ⟨((3 : ℚ), (-1 : ℚ)), ?_, by norm_num⟩
      norm_num [runLoop, List.range', stepBody, feC1, envW9, initLoop, initState,
        assemble, assemble_time_step, solve_time_step, apply_boundary_values, buildBC,
        interpolate_boundary_map, mAdd, mSub, mSmul, mZero, vZero, forcesEvents,
        forcesOfEvent, List.filterMap])

end NavierStokes
